import Mathlib

/-!
Verification of the schema import and normalization pipeline of
`prismaSchemaUtils.service.ts` (class `PrismaSchemaUtilsService`).

The AST of the external DSL parser (`@mrleebo/prisma-ast`) is embedded as
plain inductive types; the service's methods are translated function by
function.  External collaborators (the mutable schema builder, the
pluralization utility, and the helpers of `schema-utils` that are not part
of the given sources) are modelled from the spec, either as parameters or
as clearly marked definitions.
-/

namespace PrismaSchemaUtils

/-- An attribute-argument value.  In the source AST an `arg.value` is either a
plain token (string), an array node `{type: "array", args: [...]}`, a key/value
node `{type: "keyValue", key, value}`, or some other object such as a function
call `{type: "function", name, params}`. -/
inductive ArgValue where
  | scalar (token : String)
  | array (args : List String)
  | keyValue (key value : String)
  | func (name : String)
deriving DecidableEq, Repr

/-- An attribute argument: the AST wraps the value in an `arg` node. -/
structure Arg where
  value : ArgValue
deriving DecidableEq, Repr

/-- The `name` property read off an argument value by `prepareFiledProperties`
(`arg.value.name`): only function-call values carry a `name`; on every other
shape the access yields `undefined`, modelled as `none`. -/
def ArgValue.nameProp : ArgValue → Option String
  | .func name => some name
  | _ => none

/-- A model-level (`@@`) or field-level (`@`) attribute.  `kind` is the string
tag of the AST node ("model" for block attributes, "field" otherwise); `args`
is absent (`none`) when the AST node has no `args` property. -/
structure Attribute where
  kind : String
  name : String
  args : Option (List Arg)
deriving DecidableEq, Repr

/-- A field declaration.  In the AST the node also carries the discriminator
`type = "field"`; `attributes` is absent (`none`) when the field has none. -/
structure Field where
  name : String
  fieldType : String
  optional : Bool
  attributes : Option (List Attribute)
deriving DecidableEq, Repr

/-- Every AST field node carries the discriminator tag `type = "field"`;
`prepareEntityFields` reads this tag with `field.type`. -/
def Field.nodeType (_ : Field) : String := "field"

/-- A member of a model block: a field, a block attribute, or a comment. -/
inductive Property where
  | field (f : Field)
  | attribute (a : Attribute)
  | comment (text : String)
deriving DecidableEq, Repr

/-- A model declaration. -/
structure Model where
  name : String
  properties : List Property
deriving DecidableEq, Repr

/-- A top-level declaration of the schema: a model, or anything else
(datasource, generator, enum, line break...), of which only the kind tag is
relevant to the service. -/
inductive Declaration where
  | model (m : Model)
  | other (kind : String)
deriving DecidableEq, Repr

/-- A parsed schema: the ordered list of top-level declarations. -/
structure Schema where
  list : List Declaration
deriving DecidableEq, Repr

/-- The models of a schema, in declaration order
(`schema.list.filter(item => item.type === "model")`). -/
def Schema.models (s : Schema) : List Model :=
  s.list.filterMap fun d =>
    match d with
    | .model m => some m
    | .other _ => none

/-- The model names of a schema, in declaration order. -/
def modelNames (s : Schema) : List String :=
  s.models.map fun m => m.name

/-- The names of the fields of a model, in declaration order. -/
def fieldNames (m : Model) : List String :=
  m.properties.filterMap fun p =>
    match p with
    | .field f => some f.name
    | _ => none

/-- The fields of a model, in declaration order
(`model.properties.filter(prop => prop.type === "field")`). -/
def Model.fields (m : Model) : List Field :=
  m.properties.filterMap fun p =>
    match p with
    | .field f => some f
    | _ => none

/-! ## Attribute Serializer (`prepareAttributes`) -/

/-- The serialization of one attribute argument inside the `args.map` arrow of
`prepareAttributes`: array values render as `[a, b, c]`, key/value values as
`key: value`, non-object values as their literal token, and any other object
shape falls through both branches, yielding `undefined`, which `join` renders
as an empty token. -/
def renderArg (arg : Arg) : String :=
  match arg.value with
  | .scalar token => token
  | .array args => "[" ++ String.intercalate ", " args ++ "]"
  | .keyValue key value => key ++ ": " ++ value
  | .func _ => ""

/-- The arrow body of `attributes.map` in `prepareAttributes`.  The guard
`!attribute.args && !attribute.args?.length` is truthy exactly when `args` is
absent, so a present-but-empty `args` array still takes the parenthesised
branch. -/
def prepareAttribute (attr : Attribute) : String :=
  match attr.args with
  | none =>
    (if attr.kind = "model" then "@@" else "@") ++ attr.name
  | some args =>
    (if attr.kind = "model" then "@@" else "@") ++ attr.name ++
      "(" ++ String.intercalate ", " (args.map renderArg) ++ ")"

/-- `prepareAttributes`: translate a (possibly absent) attribute list into the
array of serialized attribute strings.  The guard
`!attributes && !attributes?.length` is truthy exactly when the list is
absent. -/
def prepareAttributes (attributes : Option (List Attribute)) : List String :=
  match attributes with
  | none => []
  | some attrs => attrs.map prepareAttribute

/-! ## Default-Property Resolver (`prepareFiledProperties`) -/

/-- The canonical default-value property descriptors. -/
inductive IdTypeProperty where
  | autoIncrement
  | uuid
  | cuid
deriving DecidableEq, Repr

/-- Modelled from the spec: `idTypePropertyMap` (imported from
`./schema-utils`, which is not among the given sources) is a closed lookup
table keyed by the default-generation function name (auto-increment,
UUID-generation, client-generated id); unknown keys yield `undefined`. -/
def idTypePropertyMap : String → Option IdTypeProperty
  | "autoincrement" => some .autoIncrement
  | "uuid" => some .uuid
  | "cuid" => some .cuid
  | _ => none

/-- `prepareFiledProperties`: look up the field's `default` attribute; absent
attribute returns `undefined`.  A present attribute is dereferenced at
`defaultIdAttribute.args[0].value.name` unconditionally, so an absent or empty
`args` list throws a `TypeError` (modelled as `Except.error`); a first
argument whose value carries no `name`, or a name outside the lookup table,
yields `undefined`. -/
def prepareFiledProperties (field : Field) : Except String (Option IdTypeProperty) :=
  match (field.attributes.getD []).find? (fun attr => attr.name = "default") with
  | none => .ok none
  | some defaultIdAttribute =>
    match defaultIdAttribute.args.getD [] with
    | [] => .error "TypeError: cannot read properties of undefined"
    | arg :: _ =>
      match arg.value.nameProp with
      | some name => .ok (idTypePropertyMap name)
      | none => .ok none

/-! ## Entity Projector (`prepareEntity` / `prepareEntityFields`) -/

/-- The entity record of the import contract. -/
structure CreateEntityInput where
  name : String
  displayName : String
  pluralDisplayName : String
  description : Option String
  customAttributes : List String
deriving DecidableEq, Repr

/-- The entity-field record of the import contract. -/
structure CreateEntityFieldInput where
  name : String
  displayName : String
  dataType : String
  required : Bool
  unique : Bool
  searchable : Bool
  description : Option String
  properties : Option IdTypeProperty
  customAttributes : List String
deriving DecidableEq, Repr

/-- Modelled from the spec: `filterOutAmplicationAttributes` (imported from
`./schema-utils`, which is not among the given sources) removes the serialized
strings of internally reserved attributes; the reserved set is abstracted as a
predicate on serialized strings. -/
def filterOutAmplicationAttributes (reserved : String → Bool)
    (attributes : List String) : List String :=
  attributes.filter fun a => !(reserved a)

/-- `prepareEntity`: project a model into an entity record.  `pluralizeFn`
models the external `pluralize` utility.  The model-level attributes are
serialized and stored in `customAttributes` without any filtering. -/
def prepareEntity (pluralizeFn : String → String) (model : Model) : CreateEntityInput :=
  let modelAttributes := model.properties.filterMap fun p =>
    match p with
    | .attribute a => some a
    | _ => none
  let entityPluralDisplayName := pluralizeFn model.name
  let entityAttributes := prepareAttributes (some modelAttributes)
  { name := model.name
    displayName := model.name
    pluralDisplayName := entityPluralDisplayName
    description := none
    customAttributes := entityAttributes }

/-- The arrow body of `modelFields.map` in `prepareEntityFields`; a throw from
`prepareFiledProperties` propagates. -/
def prepareEntityField (reserved : String → Bool) (field : Field) :
    Except String CreateEntityFieldInput :=
  let isUniqueField := (field.attributes.getD []).any fun attr => attr.name = "unique"
  match prepareFiledProperties field with
  | .error e => .error e
  | .ok fieldProperties =>
    let fieldAttributes :=
      filterOutAmplicationAttributes reserved (prepareAttributes field.attributes)
    .ok
      { name := field.name
        displayName := field.name
        dataType := field.nodeType
        required := field.optional
        unique := isUniqueField
        searchable := false
        description := none
        properties := fieldProperties
        customAttributes := fieldAttributes }

/-- Effectful map over a list, stopping at the first thrown error, mirroring a
JS `Array.map` whose callback may throw. -/
def mapExcept (g : α → Except ε β) : List α → Except ε (List β)
  | [] => .ok []
  | a :: rest =>
    match g a with
    | .error e => .error e
    | .ok b =>
      match mapExcept g rest with
      | .error e => .error e
      | .ok bs => .ok (b :: bs)

/-- `prepareEntityFields`: project the fields of a model into entity-field
records. -/
def prepareEntityFields (reserved : String → Bool) (model : Model) :
    Except String (List CreateEntityFieldInput) :=
  mapExcept (prepareEntityField reserved) model.fields

/-! ## Builder primitives

The service mutates the schema through the external
`ConcretePrismaSchemaBuilder`.  Modelled from the spec (§4.1): the builder
offers locate-model-by-name, locate-field-by-name-within-model, append a
model-level or field-level attribute, and a rename hook; a lookup resolves to
the first declaration with the given name.  Each locate-and-mutate call is
embedded as `mapFirstBy`: apply `f` to the first entry satisfying `p`. -/

def mapFirstBy (p : α → Bool) (f : α → α) : List α → List α
  | [] => []
  | a :: rest => if p a then f a :: rest else a :: mapFirstBy p f rest

/-- Does the declaration carry a model with this name? -/
def declIsModelNamed (nm : String) (d : Declaration) : Bool :=
  match d with
  | .model m => m.name = nm
  | .other _ => false

/-- Apply a model transformation to a declaration, leaving non-models alone. -/
def onModel (f : Model → Model) (d : Declaration) : Declaration :=
  match d with
  | .model m => .model (f m)
  | .other k => .other k

/-- Is the property a field with this name? -/
def propIsFieldNamed (nm : String) (p : Property) : Bool :=
  match p with
  | .field f => f.name = nm
  | _ => false

/-- Apply a field transformation to a property, leaving non-fields alone. -/
def onField (g : Field → Field) (p : Property) : Property :=
  match p with
  | .field f => .field (g f)
  | p => p

/-! ## Normalization pipeline -/

/-- The condition of `handleModelNamesRenaming`:
`pluralize.isPlural(model.name) || model.name.includes("_")`, with the
external `pluralize.isPlural` modelled as the parameter `isPlural` and the
underscore test expressed over the name's character list. -/
def isInvalidModelName (isPlural : String → Bool) (name : String) : Bool :=
  isPlural name || name.data.contains '_'

/-- The model-level mapping attribute appended by
`builder.model(name).blockAttribute("map", name)`: `@@map("originalName")`. -/
def blockMapAttribute (originalName : String) : Attribute :=
  { kind := "model", name := "map",
    args := some [{ value := ArgValue.scalar ("\"" ++ originalName ++ "\"") }] }

/-- The field-level mapping attribute appended by
`builder.model(...).field(name).attribute("map", [name])`:
`@map([originalName])`. -/
def fieldMapAttribute (originalName : String) : Attribute :=
  { kind := "field", name := "map",
    args := some [{ value := ArgValue.array [originalName] }] }

/-- One iteration of the `models.map` loop of `handleModelNamesRenaming`,
given the name of the model captured at loop start: if the name is plural or
snake case, append `@@map` to the first model currently carrying that name,
then rename it with `handleModelName` (an external helper of `schema-utils`,
modelled as the parameter `hmn`). -/
def renameFoldStep (isPlural : String → Bool) (hmn : String → String)
    (t : List Declaration) (nm : String) : List Declaration :=
  if isInvalidModelName isPlural nm then
    mapFirstBy (declIsModelNamed nm)
      (onModel fun m => { m with name := hmn m.name })
      (mapFirstBy (declIsModelNamed nm)
        (onModel fun m =>
          { m with properties :=
              m.properties ++ [Property.attribute (blockMapAttribute nm)] })
        t)
  else t

/-- `handleModelNamesRenaming`: iterate over the models captured from the
schema at entry, running `renameFoldStep` on the accumulating builder state
for each. -/
def handleModelNamesRenaming (isPlural : String → Bool) (hmn : String → String)
    (s : Schema) : Schema :=
  let models := s.models
  ⟨models.foldl (fun builder model => renameFoldStep isPlural hmn builder model.name)
    s.list⟩

/-- The predicate of the `model.properties.find` of `handleIdField`: a
property that is a field carrying an attribute named `id`
(`property.type === "field" && property.attributes?.some(attr => attr.name === "id")`). -/
def propHasIdAttribute (p : Property) : Bool :=
  match p with
  | .field f => (f.attributes.getD []).any fun attr => attr.name = "id"
  | _ => false

/-- The `model.properties.find` of `handleIdField`: the first property that is
a field carrying an attribute named `id`. -/
def findIdField (m : Model) : Option Field :=
  match m.properties.find? propHasIdAttribute with
  | some (.field f) => some f
  | _ => none

/-- One iteration of the `models.map` loop of `handleIdField`, given the model
captured at loop start: if a primary-key field exists and is not named `id`,
append `@map([name])` to the first field with that name in the first model
with the captured model's name, then rename that field to `id`. -/
def idFoldStep (t : List Declaration) (model : Model) : List Declaration :=
  match findIdField model with
  | some idField =>
    if idField.name ≠ "id" then
      mapFirstBy (declIsModelNamed model.name)
        (onModel fun m =>
          { m with properties :=
              (mapFirstBy (propIsFieldNamed idField.name)
                (onField fun f => { f with name := "id" }) m.properties) })
        (mapFirstBy (declIsModelNamed model.name)
          (onModel fun m =>
            { m with properties :=
                (mapFirstBy (propIsFieldNamed idField.name)
                  (onField fun f =>
                    { f with attributes :=
                        (some ((f.attributes.getD []) ++
                          [fieldMapAttribute idField.name])) })
                  m.properties) })
          t)
    else t
  | none => t

/-- `handleIdField`: iterate over the models captured from the schema at
entry, running `idFoldStep` on the accumulating builder state for each. -/
def handleIdField (s : Schema) : Schema :=
  let models := s.models
  ⟨models.foldl idFoldStep s.list⟩

/-- `prepareSchema`: run the operations strictly in order over the same
accumulating builder state and return the resulting schema. -/
def prepareSchema (operations : List (Schema → Schema)) (initialSchema : Schema) :
    Schema :=
  operations.foldl (fun builder operation => operation builder) initialSchema

/-- The fixed operation list of the service
(`[handleModelNamesRenaming, handleIdField]`) applied through
`prepareSchema`. -/
def normalizeSchema (isPlural : String → Bool) (hmn : String → String)
    (s : Schema) : Schema :=
  prepareSchema [handleModelNamesRenaming isPlural hmn, handleIdField] s

/-- The net per-model effect of one `handleModelNamesRenaming` iteration on
the model it targets. -/
def renameModelStep (isPlural : String → Bool) (hmn : String → String)
    (m : Model) : Model :=
  if isInvalidModelName isPlural m.name then
    { name := hmn m.name
      properties := m.properties ++ [Property.attribute (blockMapAttribute m.name)] }
  else m

/-- The net per-model effect of one `handleIdField` iteration on the model it
targets. -/
def idFieldStep (m : Model) : Model :=
  match findIdField m with
  | some idField =>
    if idField.name ≠ "id" then
      { m with properties :=
          (mapFirstBy (propIsFieldNamed idField.name)
            (onField fun f => { f with name := "id" })
            (mapFirstBy (propIsFieldNamed idField.name)
              (onField fun f =>
                { f with attributes :=
                    (some ((f.attributes.getD []) ++
                      [fieldMapAttribute idField.name])) })
              m.properties)) }
    else m
  | none => m

/-! ## Schema Validator (`validateSchemaProcessing`) -/

inductive ErrorLevel where
  | Error
  | Warning
deriving DecidableEq, Repr

structure ErrorMessage where
  message : String
  level : ErrorLevel
  details : String
deriving DecidableEq, Repr

/-- Modelled from the spec: the `ErrorMessages.NoModels` constant of
`./types`, which is not among the given sources — the "no models" error
message. -/
def ErrorMessages.NoModels : String := "no models"

/-- `validateSchemaProcessing` applied to the already-parsed schema: collect
structural errors (currently only the no-models rule) and return `null` when
the list stays empty. -/
def validateSchemaProcessing (s : Schema) : Option (List ErrorMessage) :=
  let models := s.models
  let errors : List ErrorMessage :=
    if models.length = 0 then
      [{ message := ErrorMessages.NoModels
         level := ErrorLevel.Error
         details := "A schema must contain at least one model" }]
    else []
  if errors.length > 0 then some errors else none

/-! ## Generic helper lemmas -/

/-- Every element of a successful `mapExcept` run satisfies any property
enjoyed by all successful outputs of the mapped function. -/
theorem mapExcept_ok_forall {g : α → Except ε β} {P : β → Prop}
    (hg : ∀ a b, g a = .ok b → P b) :
    ∀ (l : List α) (bs : List β), mapExcept g l = .ok bs → ∀ b ∈ bs, P b := by
  intro l
  induction l with
  | nil =>
    intro bs h b hb
    simp only [mapExcept] at h
    cases h
    simp at hb
  | cons a rest ih =>
    intro bs h b hb
    simp only [mapExcept] at h
    cases hga : g a with
    | error e => rw [hga] at h; cases h
    | ok b0 =>
      rw [hga] at h
      cases hr : mapExcept g rest with
      | error e => rw [hr] at h; cases h
      | ok bs0 =>
        rw [hr] at h
        cases h
        rcases List.mem_cons.mp hb with hb | hb
        · exact hb ▸ hg a b0 hga
        · exact ih bs0 hr b hb

/-- When at most one entry satisfies `p`, modifying the first match is the
same as modifying every match pointwise. -/
theorem mapFirstBy_eq_map {p : α → Bool} {f : α → α} :
    ∀ (l : List α), l.countP p ≤ 1 →
      mapFirstBy p f l = l.map fun a => if p a then f a else a := by
  intro l
  induction l with
  | nil => intro _; rfl
  | cons a rest ih =>
    intro hc
    rw [List.countP_cons] at hc
    by_cases hp : p a
    · simp only [hp, if_true] at hc
      have hz : rest.countP p = 0 := by omega
      have hrest : rest.map (fun a => if p a then f a else a) = rest := by
        have hall := List.countP_eq_zero.mp hz
        calc rest.map (fun a => if p a then f a else a)
            = rest.map id := by
              apply List.map_congr_left
              intro b hb
              simp [Bool.eq_false_iff.mpr (hall b hb)]
          _ = rest := List.map_id rest
      simp [mapFirstBy, hp, hrest]
    · have hc' : rest.countP p ≤ 1 := by
        simp only [hp, if_false] at hc
        omega
      simp [mapFirstBy, hp, ih hc']

/-- Modifying the first match at a known position, when no earlier entry
matches, is a `List.set`. -/
theorem mapFirstBy_eq_set {p : α → Bool} {f : α → α} :
    ∀ (l : List α) (k : Nat) (a : α), l[k]? = some a → p a = true →
      (∀ b ∈ l.take k, p b = false) → mapFirstBy p f l = l.set k (f a) := by
  intro l
  induction l with
  | nil => intro k a hk; simp at hk
  | cons c rest ih =>
    intro k a hk hp htake
    cases k with
    | zero =>
      simp only [List.getElem?_cons_zero, Option.some_inj] at hk
      subst hk
      simp [mapFirstBy, hp]
    | succ k =>
      simp only [List.getElem?_cons_succ] at hk
      have hc : p c = false := by
        apply htake
        simp [List.take_succ_cons]
      simp only [mapFirstBy, hc, Bool.false_eq_true, if_false, List.set_cons_succ]
      congr 1
      apply ih k a hk hp
      intro b hb
      exact htake b (by simp [List.take_succ_cons, hb])

/-- `find?` returns the entry at position `k` when it matches and no earlier
entry does. -/
theorem find?_eq_some_of_position {p : α → Bool} :
    ∀ (l : List α) (k : Nat) (a : α), l[k]? = some a → p a = true →
      (∀ b ∈ l.take k, p b = false) → l.find? p = some a := by
  intro l
  induction l with
  | nil => intro k a hk; simp at hk
  | cons c rest ih =>
    intro k a hk hp htake
    cases k with
    | zero =>
      simp only [List.getElem?_cons_zero, Option.some_inj] at hk
      subst hk
      simp [List.find?_cons, hp]
    | succ k =>
      simp only [List.getElem?_cons_succ] at hk
      have hc : p c = false := htake c (by simp [List.take_succ_cons])
      simp only [List.find?_cons, hc]
      apply ih k a hk hp
      intro b hb
      exact htake b (by simp [List.take_succ_cons, hb])

/-- A successful `find?` pinpoints a position whose earlier entries all fail
the predicate. -/
theorem find?_to_position {p : α → Bool} :
    ∀ (l : List α) (a : α), l.find? p = some a →
      ∃ k, l[k]? = some a ∧ p a = true ∧ ∀ b ∈ l.take k, p b = false := by
  intro l
  induction l with
  | nil => intro a h; simp at h
  | cons c rest ih =>
    intro a h
    by_cases hc : p c
    · rw [List.find?_cons_of_pos _ hc] at h
      cases h
      exact ⟨0, by simp, hc, by simp⟩
    · rw [List.find?_cons_of_neg _ hc] at h
      obtain ⟨k, hk, hp, htake⟩ := ih a h
      refine ⟨k + 1, by simpa using hk, hp, ?_⟩
      intro b hb
      rw [List.take_succ_cons] at hb
      rcases List.mem_cons.mp hb with hb | hb
      · subst hb; exact Bool.eq_false_iff.mpr hc
      · exact htake b hb

/-- In a list whose `filterMap` image is duplicate-free, no entry strictly
before position `k` maps to the same value as the entry at `k`. -/
theorem nodup_filterMap_take {g : α → Option β} :
    ∀ (l : List α) (k : Nat) (a : α) (v : β), (l.filterMap g).Nodup →
      l[k]? = some a → g a = some v → ∀ b ∈ l.take k, g b ≠ some v := by
  intro l
  induction l with
  | nil => intro k a v _ hk; simp at hk
  | cons c rest ih =>
    intro k a v hnd hk hv
    cases k with
    | zero => intro b hb; simp at hb
    | succ k =>
      simp only [List.getElem?_cons_succ] at hk
      intro b hb
      rw [List.take_succ_cons] at hb
      have hmem : v ∈ rest.filterMap g := by
        apply List.mem_filterMap.mpr
        have hamem : a ∈ rest := by
          have : rest[k]? = some a := hk
          exact List.getElem?_mem this
        exact ⟨a, hamem, hv⟩
      rcases List.mem_cons.mp hb with hb | hb
      · subst hb
        intro hgb
        rw [List.filterMap_cons, hgb] at hnd
        rw [List.nodup_cons] at hnd
        exact hnd.1 hmem
      · have hnd' : (rest.filterMap g).Nodup := by
          rw [List.filterMap_cons] at hnd
          cases hgc : g c with
          | none => rwa [hgc] at hnd
          | some w =>
            rw [hgc, List.nodup_cons] at hnd
            exact hnd.2
        exact ih k a v hnd' hk hv b hb

/-- The number of declarations carrying a model named `nm` equals the count of
`nm` among the declared model names. -/
theorem countP_declIsModelNamed :
    ∀ (t : List Declaration) (nm : String),
      t.countP (declIsModelNamed nm) = (modelNames ⟨t⟩).count nm := by
  intro t nm
  induction t with
  | nil => rfl
  | cons d rest ih =>
    cases d with
    | model m =>
      simp only [List.countP_cons, declIsModelNamed]
      rw [ih]
      have hnames : modelNames ⟨Declaration.model m :: rest⟩ =
          m.name :: modelNames ⟨rest⟩ := by
        simp [modelNames, Schema.models, List.filterMap_cons]
      rw [hnames, List.count_cons]
      by_cases h : m.name = nm
      · simp [h, List.count_cons]
      · simp [h, List.count_cons, Ne.symm h]
    | other k =>
      simp only [List.countP_cons, declIsModelNamed]
      rw [ih]
      have hnames : modelNames ⟨Declaration.other k :: rest⟩ = modelNames ⟨rest⟩ := by
        simp [modelNames, Schema.models, List.filterMap_cons]
      rw [hnames]
      simp

/-- A duplicate-free model-name list bounds every name's declaration count by
one. -/
theorem countP_le_one_of_nodup {t : List Declaration}
    (h : (modelNames ⟨t⟩).Nodup) (nm : String) :
    t.countP (declIsModelNamed nm) ≤ 1 := by
  rw [countP_declIsModelNamed]
  exact List.nodup_iff_count_le_one.mp h nm

/-- The pointwise effect of the `@@map`-appending builder call for lookup
name `nm` on a single declaration. -/
def appendMapAttrStep (nm : String) (d : Declaration) : Declaration :=
  if declIsModelNamed nm d then
    onModel (fun m =>
      { m with properties :=
          m.properties ++ [Property.attribute (blockMapAttribute nm)] }) d
  else d

/-- The pointwise effect of the renaming builder call for lookup name `nm` on
a single declaration. -/
def renameNameStep (hmn : String → String) (nm : String) (d : Declaration) :
    Declaration :=
  if declIsModelNamed nm d then
    onModel (fun m => { m with name := hmn m.name }) d
  else d

/-- The pointwise description of the renaming pass restricted to a set of
pending model names: a model whose name is pending and invalid receives the
`@@map` attribute and the new name; everything else is untouched. -/
def renameStepFor (P : String → Bool) (hmn : String → String)
    (names : List String) (d : Declaration) : Declaration :=
  match d with
  | .model m =>
    if m.name ∈ names ∧ isInvalidModelName P m.name = true then
      .model { name := hmn m.name
               properties := m.properties ++ [Property.attribute (blockMapAttribute m.name)] }
    else d
  | .other k => .other k

/-- Mapping a function over a list rewrites `countP` pointwise. -/
theorem countP_map_comp (p : β → Bool) (h : α → β) (l : List α) :
    (l.map h).countP p = l.countP fun a => p (h a) := by
  rw [List.countP_map]
  rfl

/-- The composite of the two pointwise builder calls on a model
declaration. -/
theorem rename_composite_model (hmn : String → String) (nm : String) (m : Model) :
    renameNameStep hmn nm (appendMapAttrStep nm (.model m)) =
      (if m.name = nm then
        .model { name := hmn m.name
                 properties := m.properties ++ [Property.attribute (blockMapAttribute nm)] }
      else .model m) := by
  by_cases hm : m.name = nm
  · simp [appendMapAttrStep, renameNameStep, declIsModelNamed, onModel, hm]
  · simp [appendMapAttrStep, renameNameStep, declIsModelNamed, onModel, hm]

/-- The composite of the two pointwise builder calls on a non-model
declaration. -/
theorem rename_composite_other (hmn : String → String) (nm k : String) :
    renameNameStep hmn nm (appendMapAttrStep nm (.other k)) = .other k := by
  simp [appendMapAttrStep, renameNameStep, declIsModelNamed, onModel]

/-- Whether a model declaration carries the name `nm2` after the composite
builder calls for lookup name `nm`. -/
theorem rename_composite_named_model (hmn : String → String) (nm nm2 : String)
    (m : Model) :
    declIsModelNamed nm2 (renameNameStep hmn nm (appendMapAttrStep nm (.model m))) =
      (if m.name = nm then decide (hmn m.name = nm2) else decide (m.name = nm2)) := by
  rw [rename_composite_model]
  by_cases hm : m.name = nm
  · simp [declIsModelNamed, hm]
  · simp [declIsModelNamed, hm]

/-- Folding the renaming step over a duplicate-free list of names acts
pointwise, provided each pending invalid name occurs on at most one model and
the renaming helper never produces an invalid name. -/
theorem foldRename_eq_map (P : String → Bool) (hmn : String → String)
    (hG : ∀ n, isInvalidModelName P (hmn n) = false) :
    ∀ (names : List String) (t : List Declaration), names.Nodup →
      (∀ nm ∈ names, isInvalidModelName P nm = true →
        t.countP (declIsModelNamed nm) ≤ 1) →
      names.foldl (renameFoldStep P hmn) t = t.map (renameStepFor P hmn names) := by
  intro names
  induction names with
  | nil =>
    intro t _ _
    simp only [List.foldl_nil]
    symm
    calc t.map (renameStepFor P hmn []) = t.map id := by
          apply List.map_congr_left
          intro d _
          cases d with
          | model m => simp [renameStepFor]
          | other k => rfl
      _ = t := List.map_id t
  | cons nm rest ih =>
    intro t hnd hcnt
    rw [List.foldl_cons]
    have hnm_rest : nm ∉ rest := (List.nodup_cons.mp hnd).1
    have hnd2 : rest.Nodup := (List.nodup_cons.mp hnd).2
    by_cases hinv : isInvalidModelName P nm = true
    · -- the head name is invalid: the step fires
      have hcount : t.countP (declIsModelNamed nm) ≤ 1 :=
        hcnt nm (List.mem_cons_self nm rest) hinv
      have e1 : renameFoldStep P hmn t nm =
          t.map fun d => renameNameStep hmn nm (appendMapAttrStep nm d) := by
        unfold renameFoldStep
        rw [if_pos hinv]
        have ha : mapFirstBy (declIsModelNamed nm)
            (onModel fun m =>
              { m with properties :=
                  m.properties ++ [Property.attribute (blockMapAttribute nm)] }) t =
            t.map (appendMapAttrStep nm) := mapFirstBy_eq_map t hcount
        rw [ha]
        have hcount2 : (t.map (appendMapAttrStep nm)).countP (declIsModelNamed nm) ≤ 1 := by
          rw [countP_map_comp]
          have heq : t.countP (fun d => declIsModelNamed nm (appendMapAttrStep nm d)) =
              t.countP (declIsModelNamed nm) := by
            apply List.countP_congr
            intro d _
            cases d with
            | model m =>
              by_cases hm : m.name = nm
              · simp [appendMapAttrStep, declIsModelNamed, onModel, hm]
              · simp [appendMapAttrStep, declIsModelNamed, onModel, hm]
            | other k => simp [appendMapAttrStep, declIsModelNamed, onModel]
          rw [heq]
          exact hcount
        have hb : mapFirstBy (declIsModelNamed nm)
            (onModel fun m => { m with name := hmn m.name })
            (t.map (appendMapAttrStep nm)) =
            (t.map (appendMapAttrStep nm)).map (renameNameStep hmn nm) :=
          mapFirstBy_eq_map _ hcount2
        rw [hb, List.map_map]
        rfl
      rw [e1]
      have hcnt2 : ∀ nm2 ∈ rest, isInvalidModelName P nm2 = true →
          (t.map fun d => renameNameStep hmn nm (appendMapAttrStep nm d)).countP
            (declIsModelNamed nm2) ≤ 1 := by
        intro nm2 hmem2 hinv2
        rw [countP_map_comp]
        have heq : t.countP (fun d =>
            declIsModelNamed nm2 (renameNameStep hmn nm (appendMapAttrStep nm d))) =
            t.countP (declIsModelNamed nm2) := by
          apply List.countP_congr
          intro d _
          cases d with
          | model m =>
            rw [rename_composite_named_model]
            have hne1 : hmn m.name ≠ nm2 := by
              intro hcontra
              have hbad := hG m.name
              rw [hcontra, hinv2] at hbad
              cases hbad
            by_cases hm : m.name = nm
            · have hne2 : m.name ≠ nm2 := by
                rw [hm]
                intro hcontra
                exact hnm_rest (hcontra ▸ hmem2)
              rw [if_pos hm]
              simp [declIsModelNamed, hne1, hne2]
            · rw [if_neg hm]
              simp [declIsModelNamed]
          | other k =>
            rw [rename_composite_other]
        rw [heq]
        exact hcnt nm2 (List.mem_cons_of_mem nm hmem2) hinv2
      rw [ih _ hnd2 hcnt2, List.map_map]
      apply List.map_congr_left
      intro d _
      simp only [Function.comp_apply]
      cases d with
      | model m =>
        rw [rename_composite_model]
        by_cases hm : m.name = nm
        · rw [if_pos hm]
          have ha : ¬ (hmn m.name ∈ rest ∧ isInvalidModelName P (hmn m.name) = true) := by
            intro hpair
            have hbad := hG m.name
            rw [hpair.2] at hbad
            cases hbad
          have hb : m.name ∈ nm :: rest ∧ isInvalidModelName P m.name = true := by
            constructor
            · rw [hm]
              exact List.mem_cons_self nm rest
            · rw [hm]
              exact hinv
          simp only [renameStepFor]
          rw [if_neg ha, if_pos hb, hm]
        · rw [if_neg hm]
          simp only [renameStepFor]
          have hiff : (m.name ∈ rest ∧ isInvalidModelName P m.name = true) ↔
              (m.name ∈ nm :: rest ∧ isInvalidModelName P m.name = true) := by
            constructor
            · intro hpair
              exact ⟨List.mem_cons_of_mem nm hpair.1, hpair.2⟩
            · intro hpair
              rcases List.mem_cons.mp hpair.1 with ha | ha
              · exact absurd ha hm
              · exact ⟨ha, hpair.2⟩
          by_cases hcase : m.name ∈ rest ∧ isInvalidModelName P m.name = true
          · rw [if_pos hcase, if_pos (hiff.mp hcase)]
          · rw [if_neg hcase, if_neg (fun hx => hcase (hiff.mpr hx))]
      | other k =>
        rw [rename_composite_other]
        rfl
    · -- the head name is valid: the step is the identity
      have e0 : renameFoldStep P hmn t nm = t := by
        unfold renameFoldStep
        rw [if_neg hinv]
      rw [e0]
      rw [ih _ hnd2 (fun nm2 hmem2 hinv2 =>
        hcnt nm2 (List.mem_cons_of_mem nm hmem2) hinv2)]
      apply List.map_congr_left
      intro d _
      cases d with
      | model m =>
        simp only [renameStepFor]
        by_cases hm : m.name = nm
        · have ha : ¬ (m.name ∈ rest ∧ isInvalidModelName P m.name = true) := by
            intro hpair
            exact hnm_rest (hm ▸ hpair.1)
          have hb : ¬ (m.name ∈ nm :: rest ∧ isInvalidModelName P m.name = true) := by
            intro hpair
            rw [hm] at hpair
            exact hinv hpair.2
          rw [if_neg ha, if_neg hb]
        · have hiff : (m.name ∈ rest ∧ isInvalidModelName P m.name = true) ↔
              (m.name ∈ nm :: rest ∧ isInvalidModelName P m.name = true) := by
            constructor
            · intro hpair
              exact ⟨List.mem_cons_of_mem nm hpair.1, hpair.2⟩
            · intro hpair
              rcases List.mem_cons.mp hpair.1 with ha | ha
              · exact absurd ha hm
              · exact ⟨ha, hpair.2⟩
          by_cases hcase : m.name ∈ rest ∧ isInvalidModelName P m.name = true
          · rw [if_pos hcase, if_pos (hiff.mp hcase)]
          · rw [if_neg hcase, if_neg (fun hx => hcase (hiff.mpr hx))]
      | other k => rfl

/-- Under distinct model names and a well-behaved renaming helper, the whole
renaming pass acts on each declaration independently as `renameModelStep`. -/
theorem handleModelNamesRenaming_eq_map (P : String → Bool) (hmn : String → String)
    (s : Schema) (hN : (modelNames s).Nodup)
    (hG : ∀ n, isInvalidModelName P (hmn n) = false) :
    (handleModelNamesRenaming P hmn s).list =
      s.list.map fun d =>
        match d with
        | .model m => .model (renameModelStep P hmn m)
        | .other k => .other k := by
  have h0 : (handleModelNamesRenaming P hmn s).list =
      (modelNames s).foldl (renameFoldStep P hmn) s.list := by
    unfold handleModelNamesRenaming modelNames
    rw [List.foldl_map]
  rw [h0, foldRename_eq_map P hmn hG _ _ hN
    (fun nm _ _ => countP_le_one_of_nodup hN nm)]
  apply List.map_congr_left
  intro d hd
  cases d with
  | model m =>
    have hmem : m.name ∈ modelNames s := by
      unfold modelNames
      apply List.mem_map_of_mem
      unfold Schema.models
      exact List.mem_filterMap.mpr ⟨.model m, hd, rfl⟩
    simp only [renameStepFor, renameModelStep]
    by_cases hinv : isInvalidModelName P m.name = true
    · rw [if_pos ⟨hmem, hinv⟩, if_pos hinv]
    · rw [if_neg (fun hpair => hinv hpair.2), if_neg hinv]
  | other k => rfl

/-- The pointwise effect of the `@map`-appending builder call of
`handleIdField` for model lookup name `mn` and field lookup name `fn`. -/
def idAppendStep (mn fn : String) (d : Declaration) : Declaration :=
  if declIsModelNamed mn d then
    onModel (fun m =>
      { m with properties :=
          (mapFirstBy (propIsFieldNamed fn)
            (onField fun f =>
              { f with attributes :=
                  (some ((f.attributes.getD []) ++ [fieldMapAttribute fn])) })
            m.properties) }) d
  else d

/-- The pointwise effect of the field-renaming builder call of `handleIdField`
for model lookup name `mn` and field lookup name `fn`. -/
def idRenameStep (mn fn : String) (d : Declaration) : Declaration :=
  if declIsModelNamed mn d then
    onModel (fun m =>
      { m with properties :=
          (mapFirstBy (propIsFieldNamed fn)
            (onField fun f => { f with name := "id" }) m.properties) }) d
  else d

/-- The composite of the two `handleIdField` builder calls on a model
declaration. -/
theorem id_composite_model (mn fn : String) (m : Model) :
    idRenameStep mn fn (idAppendStep mn fn (.model m)) =
      (if m.name = mn then
        .model { m with properties :=
          (mapFirstBy (propIsFieldNamed fn)
            (onField fun f => { f with name := "id" })
            (mapFirstBy (propIsFieldNamed fn)
              (onField fun f =>
                { f with attributes :=
                    (some ((f.attributes.getD []) ++ [fieldMapAttribute fn])) })
              m.properties)) }
      else .model m) := by
  by_cases hm : m.name = mn
  · simp [idAppendStep, idRenameStep, declIsModelNamed, onModel, hm]
  · simp [idAppendStep, idRenameStep, declIsModelNamed, onModel, hm]

/-- The composite of the two `handleIdField` builder calls on a non-model
declaration. -/
theorem id_composite_other (mn fn k : String) :
    idRenameStep mn fn (idAppendStep mn fn (.other k)) = .other k := by
  simp [idAppendStep, idRenameStep, declIsModelNamed, onModel]

/-- The `handleIdField` builder calls never change which model name a
declaration carries. -/
theorem id_composite_named (mn fn nm2 : String) (d : Declaration) :
    declIsModelNamed nm2 (idRenameStep mn fn (idAppendStep mn fn d)) =
      declIsModelNamed nm2 d := by
  cases d with
  | model m =>
    rw [id_composite_model]
    by_cases hm : m.name = mn
    · rw [if_pos hm]
      simp [declIsModelNamed]
    · rw [if_neg hm]
  | other k =>
    rw [id_composite_other]

/-- The per-model step preserves the model's name. -/
theorem idFieldStep_name (m : Model) : (idFieldStep m).name = m.name := by
  cases hfind : findIdField m with
  | none => simp only [idFieldStep, hfind]
  | some f =>
    by_cases hname : f.name ≠ "id"
    · simp only [idFieldStep, hfind, if_pos hname]
    · simp only [idFieldStep, hfind, if_neg hname]

/-- Under distinct model names, the name each declaration carries determines
its model. -/
theorem decl_named_eq_of_nodup {s : Schema} (hN : (modelNames s).Nodup) :
    ∀ m ∈ s.models, ∀ d ∈ s.list, declIsModelNamed m.name d = true →
      d = .model m := by
  intro m hm d hd hnamed
  cases d with
  | other k => cases hnamed
  | model m2 =>
    have hm2 : m2 ∈ s.models := by
      unfold Schema.models
      exact List.mem_filterMap.mpr ⟨.model m2, hd, rfl⟩
    have hname : m2.name = m.name := by
      simpa [declIsModelNamed] using hnamed
    have : m2 = m := by
      have hinj := List.inj_on_of_nodup_map (f := fun m : Model => m.name)
        (l := s.models) hN
      exact hinj hm2 hm hname
    rw [this]

/-- The pointwise description of the id-field pass restricted to a set of
pending model names. -/
def idStepFor (names : List String) (d : Declaration) : Declaration :=
  match d with
  | .model m2 => if m2.name ∈ names then .model (idFieldStep m2) else d
  | .other k => .other k

theorem idStepFor_model (names : List String) (m2 : Model) :
    idStepFor names (.model m2) =
      if m2.name ∈ names then .model (idFieldStep m2) else .model m2 := rfl

theorem idStepFor_other (names : List String) (k : String) :
    idStepFor names (.other k) = .other k := rfl

/-- Folding the id-field step over models with pairwise distinct names acts on
each declaration independently as `idFieldStep`. -/
theorem foldId_eq_map :
    ∀ (ms : List Model) (t : List Declaration),
      (ms.map fun m => m.name).Nodup →
      (∀ m ∈ ms, t.countP (declIsModelNamed m.name) ≤ 1) →
      (∀ m ∈ ms, ∀ d ∈ t, declIsModelNamed m.name d = true → d = .model m) →
      ms.foldl idFoldStep t = t.map (idStepFor (ms.map fun m => m.name)) := by
  intro ms
  induction ms with
  | nil =>
    intro t _ _ _
    simp only [List.foldl_nil, List.map_nil]
    symm
    calc t.map (idStepFor []) = t.map id := by
          apply List.map_congr_left
          intro d _
          cases d with
          | model m2 => rw [idStepFor_model]; simp
          | other k => rfl
      _ = t := List.map_id t
  | cons m rest ih =>
    intro t hnd hcnt hown
    rw [List.foldl_cons]
    have hnm_rest : m.name ∉ rest.map (fun m => m.name) :=
      (List.nodup_cons.mp (by simpa using hnd)).1
    have hnd2 : (rest.map fun m => m.name).Nodup :=
      (List.nodup_cons.mp (by simpa using hnd)).2
    by_cases hactive : ∃ f, findIdField m = some f ∧ f.name ≠ "id"
    · obtain ⟨f, hfind, hfname⟩ := hactive
      have e1 : idFoldStep t m =
          t.map fun d => idRenameStep m.name f.name (idAppendStep m.name f.name d) := by
        simp only [idFoldStep, hfind, if_pos hfname]
        have hcount : t.countP (declIsModelNamed m.name) ≤ 1 :=
          hcnt m (List.mem_cons_self m rest)
        have ha : mapFirstBy (declIsModelNamed m.name)
            (onModel fun m2 =>
              { m2 with properties :=
                  (mapFirstBy (propIsFieldNamed f.name)
                    (onField fun fl =>
                      { fl with attributes :=
                          (some ((fl.attributes.getD []) ++ [fieldMapAttribute f.name])) })
                    m2.properties) }) t =
            t.map (idAppendStep m.name f.name) := mapFirstBy_eq_map t hcount
        rw [ha]
        have hcount2 : (t.map (idAppendStep m.name f.name)).countP
            (declIsModelNamed m.name) ≤ 1 := by
          rw [countP_map_comp]
          have heq : t.countP (fun d => declIsModelNamed m.name (idAppendStep m.name f.name d)) =
              t.countP (declIsModelNamed m.name) := by
            apply List.countP_congr
            intro d _
            cases d with
            | model m2 =>
              by_cases hm2 : m2.name = m.name
              · simp [idAppendStep, declIsModelNamed, onModel, hm2]
              · simp [idAppendStep, declIsModelNamed, onModel, hm2]
            | other k => simp [idAppendStep, declIsModelNamed, onModel]
          rw [heq]
          exact hcount
        have hb : mapFirstBy (declIsModelNamed m.name)
            (onModel fun m2 =>
              { m2 with properties :=
                  (mapFirstBy (propIsFieldNamed f.name)
                    (onField fun fl => { fl with name := "id" }) m2.properties) })
            (t.map (idAppendStep m.name f.name)) =
            (t.map (idAppendStep m.name f.name)).map (idRenameStep m.name f.name) :=
          mapFirstBy_eq_map _ hcount2
        rw [hb, List.map_map]
        rfl
      rw [e1]
      have hcnt2 : ∀ m2 ∈ rest,
          (t.map fun d => idRenameStep m.name f.name (idAppendStep m.name f.name d)).countP
            (declIsModelNamed m2.name) ≤ 1 := by
        intro m2 hmem2
        rw [countP_map_comp]
        have heq : t.countP (fun d =>
            declIsModelNamed m2.name (idRenameStep m.name f.name (idAppendStep m.name f.name d))) =
            t.countP (declIsModelNamed m2.name) := by
          apply List.countP_congr
          intro d _
          rw [id_composite_named]
        rw [heq]
        exact hcnt m2 (List.mem_cons_of_mem m hmem2)
      have hown2 : ∀ m2 ∈ rest,
          ∀ d ∈ (t.map fun d => idRenameStep m.name f.name (idAppendStep m.name f.name d)),
            declIsModelNamed m2.name d = true → d = .model m2 := by
        intro m2 hmem2 d2 hd2 hnamed2
        obtain ⟨d, hd, hd2eq⟩ := List.mem_map.mp hd2
        have hdnamed : declIsModelNamed m2.name d = true := by
          rw [← id_composite_named m.name f.name m2.name d, hd2eq]
          exact hnamed2
        have hdeq : d = .model m2 :=
          hown m2 (List.mem_cons_of_mem m hmem2) d hd hdnamed
        have hne : m2.name ≠ m.name := by
          intro hcontra
          apply hnm_rest
          rw [← hcontra]
          exact List.mem_map_of_mem (fun m => m.name) hmem2
        rw [← hd2eq, hdeq, id_composite_model, if_neg hne]
      rw [ih _ hnd2 hcnt2 hown2, List.map_map]
      apply List.map_congr_left
      intro d hd
      simp only [Function.comp_apply]
      cases d with
      | model m2 =>
        by_cases hm2 : m2.name = m.name
        · have hdeq : Declaration.model m2 = .model m := by
            apply hown m (List.mem_cons_self m rest) _ hd
            simp [declIsModelNamed, hm2]
          have hm2m : m2 = m := by
            injection hdeq
          subst hm2m
          rw [id_composite_model, if_pos rfl]
          have hfstep : idFieldStep m2 =
              { m2 with properties :=
                  (mapFirstBy (propIsFieldNamed f.name)
                    (onField fun fl => { fl with name := "id" })
                    (mapFirstBy (propIsFieldNamed f.name)
                      (onField fun fl =>
                        { fl with attributes :=
                            (some ((fl.attributes.getD []) ++ [fieldMapAttribute f.name])) })
                      m2.properties)) } := by
            simp only [idFieldStep, hfind, if_pos hfname]
          rw [idStepFor_model, ← hfstep]
          rw [idStepFor_model]
          rw [if_neg (by rw [idFieldStep_name]; exact hnm_rest)]
          have hmemcons : m2.name ∈ (m2 :: rest).map (fun m => m.name) := by
            simp
          rw [if_pos hmemcons]
        · rw [id_composite_model, if_neg hm2, idStepFor_model, idStepFor_model]
          have hmemiff : (m2.name ∈ (m :: rest).map fun m => m.name) ↔
              (m2.name ∈ rest.map fun m => m.name) := by
            simp only [List.map_cons, List.mem_cons]
            constructor
            · intro hc
              rcases hc with hc | hc
              · exact absurd hc hm2
              · exact hc
            · intro hc
              exact Or.inr hc
          by_cases hcase : m2.name ∈ rest.map fun m => m.name
          · rw [if_pos hcase, if_pos (hmemiff.mpr hcase)]
          · rw [if_neg hcase, if_neg (fun hx => hcase (hmemiff.mp hx))]
      | other k =>
        rw [id_composite_other, idStepFor_other, idStepFor_other]
    · -- the head model's step is the identity
      have e0 : idFoldStep t m = t := by
        cases hfind : findIdField m with
        | none => simp only [idFoldStep, hfind]
        | some f =>
          by_cases hfname : f.name ≠ "id"
          · exact absurd ⟨f, hfind, hfname⟩ hactive
          · simp only [idFoldStep, hfind, if_neg hfname]
      have hid : idFieldStep m = m := by
        cases hfind : findIdField m with
        | none => simp only [idFieldStep, hfind]
        | some f =>
          by_cases hfname : f.name ≠ "id"
          · exact absurd ⟨f, hfind, hfname⟩ hactive
          · simp only [idFieldStep, hfind, if_neg hfname]
      rw [e0]
      rw [ih _ hnd2 (fun m2 hmem2 => hcnt m2 (List.mem_cons_of_mem m hmem2))
        (fun m2 hmem2 => hown m2 (List.mem_cons_of_mem m hmem2))]
      apply List.map_congr_left
      intro d hd
      cases d with
      | model m2 =>
        rw [idStepFor_model, idStepFor_model]
        by_cases hm2 : m2.name = m.name
        · have hdeq : Declaration.model m2 = .model m := by
            apply hown m (List.mem_cons_self m rest) _ hd
            simp [declIsModelNamed, hm2]
          have hm2m : m2 = m := by
            injection hdeq
          subst hm2m
          have hmemcons : m2.name ∈ (m2 :: rest).map (fun m => m.name) := by
            simp
          rw [if_pos hmemcons, hid]
          by_cases hcase : m2.name ∈ rest.map fun m => m.name
          · rw [if_pos hcase]
          · rw [if_neg hcase]
        · have hmemiff : (m2.name ∈ (m :: rest).map fun m => m.name) ↔
              (m2.name ∈ rest.map fun m => m.name) := by
            simp only [List.map_cons, List.mem_cons]
            constructor
            · intro hc
              rcases hc with hc | hc
              · exact absurd hc hm2
              · exact hc
            · intro hc
              exact Or.inr hc
          by_cases hcase : m2.name ∈ rest.map fun m => m.name
          · rw [if_pos hcase, if_pos (hmemiff.mpr hcase)]
          · rw [if_neg hcase, if_neg (fun hx => hcase (hmemiff.mp hx))]
      | other k => rfl

/-- Replacing the entry at `k` does not change the first `k` entries. -/
theorem take_set_same : ∀ (l : List α) (k : Nat) (a : α),
    (l.set k a).take k = l.take k := by
  intro l
  induction l with
  | nil => intro k a; simp
  | cons c rest ih =>
    intro k a
    cases k with
    | zero => simp
    | succ k => simp [List.set_cons_succ, List.take_succ_cons, ih]

/-- The primary-key field after the `@map([name])` attribute append. -/
def mapAttrAppendedField (f : Field) : Field :=
  { f with attributes := (some ((f.attributes.getD []) ++ [fieldMapAttribute f.name])) }

/-- The primary-key field after the attribute append and the rename to
`id`. -/
def normalizedIdField (f : Field) : Field :=
  { mapAttrAppendedField f with name := "id" }

/-- The per-model id-field step, characterized: when the first primary-key
field sits at position `k`, is not named `id`, and no earlier property is a
field with the same name, the step replaces exactly that field by its mapped
and renamed version. -/
theorem idFieldStep_set (m : Model) (k : Nat) (f : Field)
    (hk : m.properties[k]? = some (.field f))
    (hid : propHasIdAttribute (.field f) = true)
    (hEarlierNoId : ∀ p ∈ m.properties.take k, propHasIdAttribute p = false)
    (hEarlierName : ∀ p ∈ m.properties.take k, propIsFieldNamed f.name p = false)
    (hfname : f.name ≠ "id") :
    idFieldStep m =
      { m with properties :=
          m.properties.set k (Property.field (normalizedIdField f)) } := by
  have hfind : findIdField m = some f := by
    have hfind2 : m.properties.find? propHasIdAttribute = some (.field f) :=
      find?_eq_some_of_position m.properties k (.field f) hk hid hEarlierNoId
    simp only [findIdField, hfind2]
  simp only [idFieldStep, hfind, if_pos hfname]
  have hlen : k < m.properties.length := by
    by_contra hge
    rw [List.getElem?_eq_none (by omega)] at hk
    cases hk
  have h1 : mapFirstBy (propIsFieldNamed f.name)
      (onField fun fl =>
        { fl with attributes :=
            (some ((fl.attributes.getD []) ++ [fieldMapAttribute f.name])) })
      m.properties =
      m.properties.set k (Property.field (mapAttrAppendedField f)) := by
    have hp : propIsFieldNamed f.name (.field f) = true := by
      simp [propIsFieldNamed]
    have hset := mapFirstBy_eq_set (p := propIsFieldNamed f.name)
      (f := onField fun fl =>
        { fl with attributes :=
            (some ((fl.attributes.getD []) ++ [fieldMapAttribute f.name])) })
      m.properties k (.field f) hk hp hEarlierName
    rw [hset]
    rfl
  rw [h1]
  have h2 : mapFirstBy (propIsFieldNamed f.name)
      (onField fun fl => { fl with name := "id" })
      (m.properties.set k (Property.field (mapAttrAppendedField f))) =
      (m.properties.set k (Property.field (mapAttrAppendedField f))).set k
        (Property.field (normalizedIdField f)) := by
    have hk2 : (m.properties.set k (Property.field (mapAttrAppendedField f)))[k]? =
        some (Property.field (mapAttrAppendedField f)) :=
      List.getElem?_set_self (by simpa using hlen)
    have hp2 : propIsFieldNamed f.name (Property.field (mapAttrAppendedField f)) = true := by
      simp [propIsFieldNamed, mapAttrAppendedField]
    have htake2 : ∀ p ∈ (m.properties.set k
        (Property.field (mapAttrAppendedField f))).take k,
        propIsFieldNamed f.name p = false := by
      rw [take_set_same]
      exact hEarlierName
    have hset := mapFirstBy_eq_set (p := propIsFieldNamed f.name)
      (f := onField fun fl => { fl with name := "id" })
      _ k _ hk2 hp2 htake2
    rw [hset]
    rfl
  rw [h2, List.set_set]

/-- Under distinct model names, the whole id-field pass acts on each
declaration independently as `idFieldStep`. -/
theorem handleIdField_eq_map (s : Schema) (hN : (modelNames s).Nodup) :
    (handleIdField s).list = s.list.map fun d =>
      match d with
      | .model m => .model (idFieldStep m)
      | .other k => .other k := by
  have hN2 : (s.models.map fun m => m.name).Nodup := hN
  have h0 : (handleIdField s).list = s.models.foldl idFoldStep s.list := rfl
  rw [h0, foldId_eq_map s.models s.list hN2
    (fun m _ => countP_le_one_of_nodup hN m.name)
    (decl_named_eq_of_nodup hN)]
  apply List.map_congr_left
  intro d hd
  cases d with
  | model m =>
    have hmem : m.name ∈ s.models.map fun m => m.name := by
      apply List.mem_map_of_mem
      unfold Schema.models
      exact List.mem_filterMap.mpr ⟨.model m, hd, rfl⟩
    rw [idStepFor_model, if_pos hmem]
  | other k => rfl

/-- When every model name of the schema is already valid, the renaming pass
is the identity. -/
theorem handleModelNamesRenaming_noop (P : String → Bool) (hmn : String → String)
    (s : Schema) (h : ∀ nm ∈ modelNames s, isInvalidModelName P nm = false) :
    handleModelNamesRenaming P hmn s = s := by
  have haux : ∀ (ms : List Model) (t : List Declaration),
      (∀ m ∈ ms, isInvalidModelName P m.name = false) →
      ms.foldl (fun builder model => renameFoldStep P hmn builder model.name) t = t := by
    intro ms
    induction ms with
    | nil => intro t _; rfl
    | cons m rest ih =>
      intro t hall
      rw [List.foldl_cons]
      have hstep : renameFoldStep P hmn t m.name = t := by
        unfold renameFoldStep
        rw [if_neg (by rw [hall m (List.mem_cons_self m rest)]; exact Bool.false_ne_true)]
      rw [hstep]
      exact ih t (fun m2 hmem2 => hall m2 (List.mem_cons_of_mem m hmem2))
  have hlist : (handleModelNamesRenaming P hmn s).list = s.list := by
    apply haux
    intro m hmem
    exact h m.name (List.mem_map_of_mem (fun m => m.name) hmem)
  exact congrArg Schema.mk hlist

/-- When no model of the schema has a primary-key field needing a rename, the
id-field pass is the identity. -/
theorem handleIdField_noop (s : Schema)
    (h : ∀ m ∈ s.models, ∀ f, findIdField m = some f → f.name = "id") :
    handleIdField s = s := by
  have haux : ∀ (ms : List Model) (t : List Declaration),
      (∀ m ∈ ms, ∀ f, findIdField m = some f → f.name = "id") →
      ms.foldl idFoldStep t = t := by
    intro ms
    induction ms with
    | nil => intro t _; rfl
    | cons m rest ih =>
      intro t hall
      rw [List.foldl_cons]
      have hstep : idFoldStep t m = t := by
        cases hfind : findIdField m with
        | none => simp only [idFoldStep, hfind]
        | some f =>
          have hfid : f.name = "id" := hall m (List.mem_cons_self m rest) f hfind
          simp only [idFoldStep, hfind]
          rw [if_neg (fun hne : f.name ≠ "id" => hne hfid)]
      rw [hstep]
      exact ih t (fun m2 hmem2 => hall m2 (List.mem_cons_of_mem m hmem2))
  have hlist : (handleIdField s).list = s.list := haux s.models s.list h
  exact congrArg Schema.mk hlist

/-- Projecting the models out of a declaration-wise model transformation. -/
theorem filterMap_models_map (g : Model → Model) :
    ∀ t : List Declaration,
      (t.map fun d =>
        match d with
        | .model m => Declaration.model (g m)
        | .other k => Declaration.other k).filterMap
          (fun d =>
            match d with
            | .model m => some m
            | .other _ => none) =
        (t.filterMap fun d =>
          match d with
          | .model m => some m
          | .other _ => none).map g := by
  intro t
  induction t with
  | nil => rfl
  | cons d rest ih =>
    cases d with
    | model m => simp [List.filterMap_cons, ih]
    | other k => simp [List.filterMap_cons, ih]

/-- The models of the schema produced by the renaming pass. -/
theorem models_handleModelNamesRenaming (P : String → Bool) (hmn : String → String)
    (s : Schema) (hN : (modelNames s).Nodup)
    (hG : ∀ n, isInvalidModelName P (hmn n) = false) :
    (handleModelNamesRenaming P hmn s).models =
      s.models.map (renameModelStep P hmn) := by
  unfold Schema.models
  rw [handleModelNamesRenaming_eq_map P hmn s hN hG]
  exact filterMap_models_map (renameModelStep P hmn) s.list

/-- The models of the schema produced by the id-field pass. -/
theorem models_handleIdField (s : Schema) (hN : (modelNames s).Nodup) :
    (handleIdField s).models = s.models.map idFieldStep := by
  unfold Schema.models
  rw [handleIdField_eq_map s hN]
  exact filterMap_models_map idFieldStep s.list

/-- The name a model carries after the per-model renaming step. -/
theorem renameModelStep_name (P : String → Bool) (hmn : String → String)
    (m : Model) (hG : ∀ n, isInvalidModelName P (hmn n) = false) :
    isInvalidModelName P (renameModelStep P hmn m).name = false := by
  unfold renameModelStep
  by_cases hinv : isInvalidModelName P m.name = true
  · rw [if_pos hinv]
    exact hG m.name
  · rw [if_neg hinv]
    exact Bool.not_eq_true _ ▸ (Bool.eq_false_iff.mpr hinv)

/-- The per-model renaming step appends only a block attribute, so the field
names are untouched. -/
theorem fieldNames_renameModelStep (P : String → Bool) (hmn : String → String)
    (m : Model) : fieldNames (renameModelStep P hmn m) = fieldNames m := by
  unfold renameModelStep
  by_cases hinv : isInvalidModelName P m.name = true
  · rw [if_pos hinv]
    unfold fieldNames
    rw [List.filterMap_append]
    simp
  · rw [if_neg hinv]

/-- A successful `findIdField` comes from a successful property search. -/
theorem findIdField_eq_some {m : Model} {f : Field}
    (h : findIdField m = some f) :
    m.properties.find? propHasIdAttribute = some (.field f) := by
  unfold findIdField at h
  cases hfd : m.properties.find? propHasIdAttribute with
  | none => rw [hfd] at h; cases h
  | some p0 =>
    rw [hfd] at h
    cases p0
    next g =>
      have hgf : g = f := by
        simpa using h
      rw [hgf]
    next a => cases h
    next c => cases h

/-- After the per-model id-field step, the model's primary-key field, if any,
is named `id`. -/
theorem idFieldStep_fixed (m : Model) (hnodup : (fieldNames m).Nodup) :
    ∀ f2, findIdField (idFieldStep m) = some f2 → f2.name = "id" := by
  intro f2 hfind2
  cases hfind : findIdField m with
  | none =>
    have hskip : idFieldStep m = m := by
      simp only [idFieldStep, hfind]
    rw [hskip, hfind] at hfind2
    cases hfind2
  | some f =>
    by_cases hfname : f.name = "id"
    · have hskip : idFieldStep m = m := by
        simp only [idFieldStep, hfind]
        rw [if_neg (fun hne : f.name ≠ "id" => hne hfname)]
      rw [hskip, hfind] at hfind2
      have : f = f2 := by simpa using hfind2
      rw [← this]
      exact hfname
    · obtain ⟨k, hk, hp, htake⟩ :=
        find?_to_position m.properties (.field f) (findIdField_eq_some hfind)
      have hnodup2 : (m.properties.filterMap (fun p =>
          match p with
          | Property.field fl => some fl.name
          | _ => none)).Nodup := hnodup
      have hEarlierName : ∀ p ∈ m.properties.take k,
          propIsFieldNamed f.name p = false := by
        intro p hpmem
        cases p
        next g =>
          have hne := nodup_filterMap_take (g := fun p =>
              match p with
              | Property.field fl => some fl.name
              | _ => none)
            m.properties k (.field f) f.name hnodup2 hk rfl (.field g) hpmem
          simp only [propIsFieldNamed]
          have hgne : g.name ≠ f.name := by
            intro hcontra
            exact hne (by simp [hcontra])
          simp [hgne]
        next a => rfl
        next c => rfl
      have hstep := idFieldStep_set m k f hk hp htake hEarlierName hfname
      rw [hstep] at hfind2
      have hlen : k < m.properties.length := by
        by_contra hge
        rw [List.getElem?_eq_none (by omega)] at hk
        cases hk
      have hk2 : (m.properties.set k (Property.field (normalizedIdField f)))[k]? =
          some (Property.field (normalizedIdField f)) :=
        List.getElem?_set_self (by simpa using hlen)
      have hidp2 : propHasIdAttribute (Property.field (normalizedIdField f)) = true := by
        simp only [propHasIdAttribute] at hp
        simp only [propHasIdAttribute, normalizedIdField, mapAttrAppendedField,
          Option.getD_some, List.any_append]
        rw [hp]
        rfl
      have hfd2 : (m.properties.set k (Property.field (normalizedIdField f))).find?
          propHasIdAttribute = some (Property.field (normalizedIdField f)) := by
        apply find?_eq_some_of_position _ k _ hk2 hidp2
        rw [take_set_same]
        exact htake
      have : findIdField { m with properties :=
          (m.properties.set k (Property.field (normalizedIdField f))) } =
          some (normalizedIdField f) := by
        unfold findIdField
        rw [hfd2]
      rw [this] at hfind2
      have : normalizedIdField f = f2 := by simpa using hfind2
      rw [← this]
      rfl

end PrismaSchemaUtils

namespace PrismaSchemaUtils

/-! ## Claim C4 -/

/-- C4: structural validation of a parsed schema with zero models returns the
single-element list holding the no-models error at Error level; with at least
one model it returns null. -/
theorem C4_validateSchemaProcessing_no_models_rule (s : Schema) :
    validateSchemaProcessing s =
      if s.models = [] then
        some [{ message := ErrorMessages.NoModels
                level := ErrorLevel.Error
                details := "A schema must contain at least one model" }]
      else none := by
  unfold validateSchemaProcessing
  cases hs : s.models with
  | nil => simp
  | cons m rest => simp

/-! ## Claim C1 -/

/-- C1: the projected `required` value equals the field's `optional` flag, not
its negation — evaluating the projector on a model whose only field is
optional yields `required = true`, where the claim demands `required = false`.
-/
theorem C1_optional_field_projects_to_required_true :
    prepareEntityFields (fun _ => false)
      { name := "Post"
        properties := [Property.field
          { name := "title", fieldType := "String", optional := true,
            attributes := none }] } =
    Except.ok [{ name := "title"
                 displayName := "title"
                 dataType := "field"
                 required := true
                 unique := false
                 searchable := false
                 description := none
                 properties := none
                 customAttributes := [] }] := by
  rfl

/-! ## Claim C2 -/

/-- C2 counterexample: an attribute whose `args` list is present but empty
serializes with an empty pair of parentheses, not as bare `@name`. -/
theorem C2_counterexample_empty_args_render_parens :
    prepareAttributes (some [{ kind := "field", name := "unique", args := some [] }]) =
      ["@unique()"] ∧ ("@unique()" : String) ≠ "@unique" := by
  constructor
  · rfl
  · decide

/-- C2 (amended): an attribute whose `args` list is absent renders as `@name`
(field-level) or `@@name` (model-level) with no parentheses; an attribute with
a present-but-empty `args` list renders with an empty pair of parentheses. -/
theorem C2_amended_zero_arg_serialization (kind name : String) :
    prepareAttributes (some [{ kind := kind, name := name, args := none }]) =
      [(if kind = "model" then "@@" else "@") ++ name] ∧
    prepareAttributes (some [{ kind := kind, name := name, args := some [] }]) =
      [(if kind = "model" then "@@" else "@") ++ name ++ "()"] := by
  constructor
  · simp [prepareAttributes, prepareAttribute]
  · simp only [prepareAttributes, prepareAttribute, List.map_cons, List.map_nil]
    have h1 : String.intercalate ", " ([] : List String) = "" := rfl
    rw [h1]
    have h2 : ∀ x : String, x ++ "(" ++ "" ++ ")" = x ++ "()" := by
      intro x
      rw [String.append_empty, String.append_assoc]
      rfl
    rw [h2]

/-! ## Claim C8 -/

/-- The argument rendering as the claim states it: a scalar renders as its
literal token, an array as its elements comma-space joined inside square
brackets, a keyValue as `key: value`, and an argument of any other shape
contributes no rendered token. -/
def renderArgSpec (arg : Arg) : String :=
  match arg.value with
  | .scalar token => token
  | .array args => "[" ++ String.intercalate ", " args ++ "]"
  | .keyValue key value => key ++ ": " ++ value
  | _ => ""

/-- C8: for an attribute with at least one argument, the serializer renders
the arguments as the claim describes, joined with a comma-space and wrapped in
one pair of parentheses after the prefixed name. -/
theorem C8_nonempty_args_serialization (kind name : String) (args : List Arg)
    (_h : args ≠ []) :
    prepareAttributes (some [{ kind := kind, name := name, args := some args }]) =
      [(if kind = "model" then "@@" else "@") ++ name ++
        "(" ++ String.intercalate ", " (args.map renderArgSpec) ++ ")"] := by
  have hr : args.map renderArg = args.map renderArgSpec := by
    apply List.map_congr_left
    intro a _
    cases hv : a.value <;> simp [renderArg, renderArgSpec, hv]
  simp [prepareAttributes, prepareAttribute, hr]

/-- A sample argument list holding each argument shape once. -/
def sampleArgs : List Arg :=
  [⟨ArgValue.scalar "1"⟩, ⟨ArgValue.array ["a", "b"]⟩,
   ⟨ArgValue.keyValue "k" "v"⟩, ⟨ArgValue.func "now"⟩]

/-- C8 witness: a four-argument attribute containing each argument shape; the
unrecognized-shape argument contributes an empty token between separators. -/
theorem C8_witness :
    sampleArgs ≠ [] ∧
    prepareAttributes (some [{ kind := "field", name := "db", args := some sampleArgs }]) =
      [(if ("field" : String) = "model" then "@@" else "@") ++ "db" ++
        "(" ++ String.intercalate ", " (sampleArgs.map renderArgSpec) ++ ")"] :=
  ⟨by decide, C8_nonempty_args_serialization "field" "db" sampleArgs (by decide)⟩

/-! ## Claim C9 -/

/-- C9: the resolver returns absent for a field with no `default` attribute;
it throws on a `default` attribute whose argument list has zero elements; and
it returns absent when the first argument's function name is outside the
lookup table. -/
theorem C9_default_property_resolution (f1 f2 f3 : Field) (a2 a3 : Attribute)
    (v3 : Arg) (rest3 : List Arg) (nm3 : String)
    (h1 : ∀ a ∈ f1.attributes.getD [], a.name ≠ "default")
    (h2 : (f2.attributes.getD []).find? (fun a => a.name = "default") = some a2)
    (h2e : a2.args.getD [] = [])
    (h3 : (f3.attributes.getD []).find? (fun a => a.name = "default") = some a3)
    (h3a : a3.args = some (v3 :: rest3))
    (h3n : v3.value.nameProp = some nm3)
    (h3t : idTypePropertyMap nm3 = none) :
    prepareFiledProperties f1 = Except.ok none ∧
    prepareFiledProperties f2 =
      Except.error "TypeError: cannot read properties of undefined" ∧
    prepareFiledProperties f3 = Except.ok none := by
  refine ⟨?_, ?_, ?_⟩
  · unfold prepareFiledProperties
    have hn : (f1.attributes.getD []).find? (fun a => a.name = "default") = none := by
      apply List.find?_eq_none.mpr
      intro a ha
      simpa using h1 a ha
    rw [hn]
  · simp only [prepareFiledProperties, h2, h2e]
  · simp only [prepareFiledProperties, h3, h3a, Option.getD_some]
    simp [h3n, h3t]

/-- A default attribute with an empty argument list. -/
def emptyDefaultAttribute : Attribute :=
  { kind := "field", name := "default", args := some [] }

/-- A default attribute calling a function outside the lookup table. -/
def nowDefaultAttribute : Attribute :=
  { kind := "field", name := "default", args := some [⟨ArgValue.func "now"⟩] }

/-- A field without a default attribute. -/
def fieldNoDefault : Field :=
  { name := "a", fieldType := "Int", optional := false, attributes := none }

/-- A field whose default attribute has an empty argument list. -/
def fieldEmptyDefault : Field :=
  { name := "b", fieldType := "Int", optional := false,
    attributes := some [emptyDefaultAttribute] }

/-- A field whose default attribute calls an unknown function. -/
def fieldNowDefault : Field :=
  { name := "c", fieldType := "Int", optional := false,
    attributes := some [nowDefaultAttribute] }

/-- C9 witness: the three behaviours at concrete fields. -/
theorem C9_witness :
    prepareFiledProperties fieldNoDefault = Except.ok none ∧
    prepareFiledProperties fieldEmptyDefault =
      Except.error "TypeError: cannot read properties of undefined" ∧
    prepareFiledProperties fieldNowDefault = Except.ok none :=
  C9_default_property_resolution fieldNoDefault fieldEmptyDefault fieldNowDefault
    emptyDefaultAttribute nowDefaultAttribute
    ⟨ArgValue.func "now"⟩ [] "now"
    (by decide) (by decide) (by decide) (by decide) (by decide) (by decide)
    (by decide)

/-! ## Claim C10 -/

/-- C10: the projected entity's `displayName` equals its `name`, and every
projected entity field's `displayName` equals its `name`. -/
theorem C10_displayName_equals_name (pluralizeFn : String → String)
    (reserved : String → Bool) (model : Model) :
    (prepareEntity pluralizeFn model).displayName =
      (prepareEntity pluralizeFn model).name ∧
    ∀ fs, prepareEntityFields reserved model = Except.ok fs →
      ∀ r ∈ fs, r.displayName = r.name := by
  constructor
  · rfl
  · intro fs h r hr
    refine mapExcept_ok_forall (P := fun r : CreateEntityFieldInput =>
      r.displayName = r.name) ?_ model.fields fs h r hr
    intro f b hb
    unfold prepareEntityField at hb
    cases hp : prepareFiledProperties f with
    | error e => rw [hp] at hb; cases hb
    | ok props => rw [hp] at hb; cases hb; rfl

/-- A model with a single plain text field. -/
def tagModel : Model :=
  { name := "Tag",
    properties := [Property.field
      { name := "label", fieldType := "String", optional := false,
        attributes := none }] }

/-- The projection of `tagModel`'s only field. -/
def labelProjected : CreateEntityFieldInput :=
  { name := "label", displayName := "label", dataType := "field",
    required := false, unique := false, searchable := false,
    description := none, properties := none, customAttributes := [] }

/-- C10 witness: applied to a one-field model. -/
theorem C10_witness :
    (prepareEntity (fun s => s) tagModel).displayName =
      (prepareEntity (fun s => s) tagModel).name ∧
    labelProjected.displayName = labelProjected.name :=
  ⟨(C10_displayName_equals_name (fun s => s) (fun _ => false) tagModel).1,
   (C10_displayName_equals_name (fun s => s) (fun _ => false) tagModel).2
     [labelProjected] rfl labelProjected (by decide)⟩

/-! ## Claim C3 -/

/-- C3 counterexample: `prepareEntity` serializes the model-level attributes
into `customAttributes` without any reserved-attribute filtering, so a
reserved model-level attribute appears in the projected entity record. -/
theorem C3_counterexample_entity_not_filtered :
    ¬ (∀ (reserved : String → Bool) (pluralizeFn : String → String) (m : Model)
        (fs : List CreateEntityFieldInput),
        (∀ a ∈ (prepareEntity pluralizeFn m).customAttributes, reserved a = false) ∧
        (prepareEntityFields reserved m = Except.ok fs →
          ∀ r ∈ fs, ∀ a ∈ r.customAttributes, reserved a = false)) := by
  intro h
  have hmem : "@@ignore" ∈
      (prepareEntity (fun s => s)
        { name := "Post",
          properties := [Property.attribute
            { kind := "model", name := "ignore", args := none }] }).customAttributes := by
    decide
  have hfalse := (h (fun a => a == "@@ignore") (fun s => s)
      { name := "Post",
        properties := [Property.attribute
          { kind := "model", name := "ignore", args := none }] } []).1 "@@ignore" hmem
  simp at hfalse

/-- C3 (amended): every reserved serialized attribute is excluded from the
`customAttributes` of every projected entity field (the entity record itself
is serialized unfiltered). -/
theorem C3_field_attributes_exclude_reserved (reserved : String → Bool)
    (model : Model) (fs : List CreateEntityFieldInput)
    (h : prepareEntityFields reserved model = Except.ok fs) :
    ∀ r ∈ fs, ∀ a ∈ r.customAttributes, reserved a = false := by
  refine mapExcept_ok_forall (P := fun r : CreateEntityFieldInput =>
    ∀ a ∈ r.customAttributes, reserved a = false) ?_ model.fields fs h
  intro f b hb
  unfold prepareEntityField at hb
  cases hp : prepareFiledProperties f with
  | error e => rw [hp] at hb; cases hb
  | ok props =>
    rw [hp] at hb
    cases hb
    intro a ha
    simp only [filterOutAmplicationAttributes, List.mem_filter] at ha
    simpa using ha.2

/-- A model with a single primary-key field named `userId`. -/
def userIdModel : Model :=
  { name := "User",
    properties := [Property.field
      { name := "userId", fieldType := "String", optional := false,
        attributes := some [{ kind := "field", name := "id", args := none },
          { kind := "field", name := "unique", args := none }] }] }

/-- The projection of `userIdModel`'s only field under the `@id` reserved set:
the reserved string is filtered out of `customAttributes` while `@unique`
survives. -/
def userIdProjected : CreateEntityFieldInput :=
  { name := "userId", displayName := "userId", dataType := "field",
    required := false, unique := true, searchable := false,
    description := none, properties := none, customAttributes := ["@unique"] }

/-- C3 witness: the surviving `@unique` string of the projected field is not
reserved, by the field-filtering theorem applied at the projected record. -/
theorem C3_witness : (("@unique" : String) == "@id") = false :=
  C3_field_attributes_exclude_reserved (fun x => x == "@id") userIdModel
    [userIdProjected] rfl userIdProjected (by decide) "@unique" (by decide)

/-! ## Claim C6 -/

/-- C6: with distinct model names and a renaming helper whose outputs are
always valid, the Model Name Normalizer maps each declaration independently —
a model whose name is plural or contains an underscore gets the model-level
`@@map` attribute carrying the original name appended and is renamed to the
normalized form, while a model whose name is already compliant keeps its name
and attribute list unchanged (non-model declarations are untouched). -/
theorem C6_model_name_normalizer (P : String → Bool) (hmn : String → String)
    (s : Schema) (hN : (modelNames s).Nodup)
    (hG : ∀ n, isInvalidModelName P (hmn n) = false) :
    (handleModelNamesRenaming P hmn s).list =
      s.list.map fun d =>
        match d with
        | .model m =>
          if isInvalidModelName P m.name = true then
            .model { name := hmn m.name
                     properties :=
                       m.properties ++ [Property.attribute (blockMapAttribute m.name)] }
          else .model m
        | .other k => .other k := by
  rw [handleModelNamesRenaming_eq_map P hmn s hN hG]
  apply List.map_congr_left
  intro d _
  cases d with
  | model m =>
    simp only [renameModelStep]
    by_cases hinv : isInvalidModelName P m.name = true
    · rw [if_pos hinv, if_pos hinv]
    · rw [if_neg hinv, if_neg hinv]
  | other k => rfl

/-- C6 witness: a plural-named model is renamed and mapped while a compliant
model is untouched. -/
theorem C6_witness :
    (handleModelNamesRenaming (fun n => n == "Users") (fun _ => "User")
        ⟨[Declaration.model { name := "Users", properties := [] },
          Declaration.model { name := "Tag", properties := [] }]⟩).list =
      ([Declaration.model { name := "Users", properties := [] },
        Declaration.model { name := "Tag", properties := [] }] :
          List Declaration).map
        (fun d =>
          match d with
          | .model m =>
            if isInvalidModelName (fun n => n == "Users") m.name = true then
              .model { name := (fun _ => "User") m.name
                       properties :=
                         m.properties ++ [Property.attribute (blockMapAttribute m.name)] }
            else .model m
          | .other k => .other k) :=
  C6_model_name_normalizer (fun n => n == "Users") (fun _ => "User")
    ⟨[Declaration.model { name := "Users", properties := [] },
      Declaration.model { name := "Tag", properties := [] }]⟩
    (by decide)
    (by
      intro n
      show isInvalidModelName (fun n => n == "Users") "User" = false
      decide)

/-! ## Claim C5 -/

/-- C5: with distinct model names, the Id Field Normalizer processes each
model using the first-declared field that carries the `id` attribute (the
explicit tie-break): when that field (at position `k`, with no earlier
id-carrying field and no earlier field of the same name) is not named `id`,
it first receives the field-level `@map` attribute carrying the original name
and is then renamed to `id`; when it is already named `id`, the model is left
completely unchanged. -/
theorem C5_id_field_normalizer (s : Schema) (i k : Nat) (m : Model) (f : Field)
    (hN : (modelNames s).Nodup)
    (hm : s.list[i]? = some (.model m))
    (hk : m.properties[k]? = some (.field f))
    (hid : propHasIdAttribute (.field f) = true)
    (hEarlierNoId : ∀ p ∈ m.properties.take k, propHasIdAttribute p = false)
    (hEarlierName : ∀ p ∈ m.properties.take k, propIsFieldNamed f.name p = false) :
    (handleIdField s).list[i]? = some (Declaration.model
      (if f.name = "id" then m
       else { m with properties :=
           m.properties.set k (Property.field (normalizedIdField f)) })) := by
  rw [handleIdField_eq_map s hN, List.getElem?_map, hm]
  show some (Declaration.model (idFieldStep m)) = _
  by_cases hfname : f.name = "id"
  · rw [if_pos hfname]
    have hfind : findIdField m = some f := by
      have hfind2 : m.properties.find? propHasIdAttribute = some (.field f) :=
        find?_eq_some_of_position m.properties k (.field f) hk hid hEarlierNoId
      simp only [findIdField, hfind2]
    have hskip : idFieldStep m = m := by
      simp only [idFieldStep, hfind]
      rw [if_neg (fun hne : f.name ≠ "id" => hne hfname)]
    rw [hskip]
  · rw [if_neg hfname,
      idFieldStep_set m k f hk hid hEarlierNoId hEarlierName hfname]

/-- The primary-key field of the C5 witness model. -/
def w5Field : Field :=
  { name := "userId", fieldType := "String", optional := false,
    attributes := some [{ kind := "field", name := "id", args := none }] }

/-- The C5 witness model. -/
def w5Model : Model :=
  { name := "Account", properties := [Property.field w5Field] }

/-- The C5 witness schema. -/
def w5Schema : Schema := ⟨[Declaration.model w5Model]⟩

/-- C5 witness: the `userId` primary-key field of a one-model schema gets the
mapping attribute and the `id` name. -/
theorem C5_witness :
    (handleIdField w5Schema).list[0]? = some (Declaration.model
      (if w5Field.name = "id" then w5Model
       else { w5Model with properties :=
           w5Model.properties.set 0 (Property.field (normalizedIdField w5Field)) })) :=
  C5_id_field_normalizer w5Schema 0 0 w5Model w5Field (by decide) rfl rfl
    (by decide) (by decide) (by decide)

/-! ## Claim C7 -/

/-- C7: the normalization pipeline (Model Name Normalizer followed by Id
Field Normalizer, composed through `prepareSchema`) is idempotent — under
distinct model names before and after renaming, per-model distinct field
names, and a renaming helper that always produces valid names, running the
pipeline on its own output changes nothing. -/
theorem C7_normalize_idempotent (P : String → Bool) (hmn : String → String)
    (s : Schema)
    (hG : ∀ n, isInvalidModelName P (hmn n) = false)
    (h1 : (modelNames s).Nodup)
    (h2 : (modelNames (handleModelNamesRenaming P hmn s)).Nodup)
    (h3 : ∀ m ∈ s.models, (fieldNames m).Nodup) :
    normalizeSchema P hmn (normalizeSchema P hmn s) = normalizeSchema P hmn s := by
  have hm1 : (handleModelNamesRenaming P hmn s).models =
      s.models.map (renameModelStep P hmn) :=
    models_handleModelNamesRenaming P hmn s h1 hG
  have hvalid1 : ∀ nm ∈ modelNames (handleModelNamesRenaming P hmn s),
      isInvalidModelName P nm = false := by
    intro nm hmem
    unfold modelNames at hmem
    rw [hm1, List.map_map] at hmem
    obtain ⟨m0, hm0, hname⟩ := List.mem_map.mp hmem
    rw [← hname]
    simp only [Function.comp_apply]
    exact renameModelStep_name P hmn m0 hG
  have hm2 : (handleIdField (handleModelNamesRenaming P hmn s)).models =
      (handleModelNamesRenaming P hmn s).models.map idFieldStep :=
    models_handleIdField (handleModelNamesRenaming P hmn s) h2
  have hnames2 : modelNames (handleIdField (handleModelNamesRenaming P hmn s)) =
      modelNames (handleModelNamesRenaming P hmn s) := by
    unfold modelNames
    rw [hm2, List.map_map]
    apply List.map_congr_left
    intro m _
    simp only [Function.comp_apply]
    exact idFieldStep_name m
  have hstep1 : handleModelNamesRenaming P hmn
      (handleIdField (handleModelNamesRenaming P hmn s)) =
      handleIdField (handleModelNamesRenaming P hmn s) := by
    apply handleModelNamesRenaming_noop
    intro nm hmem
    rw [hnames2] at hmem
    exact hvalid1 nm hmem
  have hstep2 : handleIdField (handleIdField (handleModelNamesRenaming P hmn s)) =
      handleIdField (handleModelNamesRenaming P hmn s) := by
    apply handleIdField_noop
    intro m2 hmem2 f2 hfind2
    rw [hm2] at hmem2
    obtain ⟨m1, hm1mem, hm1eq⟩ := List.mem_map.mp hmem2
    rw [hm1] at hm1mem
    obtain ⟨m0, hm0mem, hm0eq⟩ := List.mem_map.mp hm1mem
    have hnod : (fieldNames m1).Nodup := by
      rw [← hm0eq, fieldNames_renameModelStep]
      exact h3 m0 hm0mem
    rw [← hm1eq] at hfind2
    exact idFieldStep_fixed m1 hnod f2 hfind2
  calc normalizeSchema P hmn (normalizeSchema P hmn s)
      = handleIdField (handleModelNamesRenaming P hmn
          (handleIdField (handleModelNamesRenaming P hmn s))) := rfl
    _ = handleIdField (handleIdField (handleModelNamesRenaming P hmn s)) := by
          rw [hstep1]
    _ = handleIdField (handleModelNamesRenaming P hmn s) := hstep2
    _ = normalizeSchema P hmn s := rfl

/-- The C7 witness schema: a plural model with a renameable primary key. -/
def w7Schema : Schema :=
  ⟨[Declaration.model
    { name := "Users",
      properties := [Property.field
        { name := "userId", fieldType := "String", optional := false,
          attributes := some [{ kind := "field", name := "id", args := none }] }] }]⟩

/-- C7 witness: normalizing the already-normalized witness schema changes
nothing. -/
theorem C7_witness :
    normalizeSchema (fun n => n == "Users") (fun _ => "User")
        (normalizeSchema (fun n => n == "Users") (fun _ => "User") w7Schema) =
      normalizeSchema (fun n => n == "Users") (fun _ => "User") w7Schema :=
  C7_normalize_idempotent (fun n => n == "Users") (fun _ => "User") w7Schema
    (by
      intro n
      show isInvalidModelName (fun n => n == "Users") "User" = false
      decide)
    (by decide) (by decide) (by decide)

end PrismaSchemaUtils
